import Mathlib

/-!
Verification of the proto staging and codegen build script
(`src/hello/rust/build.rs`).

The script is a cargo build script whose `main`:
1. runs `fs::create_dir_all("proto")`;
2. if `../src/main/protobuf` exists, iterates `fs::read_dir` over it and,
   for each entry whose path extension equals `"proto"`, copies it into
   `proto/` (overwriting) and prints a `cargo:rerun-if-changed=` line
   naming the source path;
3. invokes the tonic/prost code generator with `build_server(true)`,
   `build_client(true)`, entry files `["proto/hello.proto"]`, and include
   paths `["proto"]`.

The embedding below models the filesystem state the script touches: the
optional source directory listing (a list of `read_dir` items, each either
a resolved entry or an iterator error), the destination path (absent, a
directory with named byte files, or occupied by a non-directory), and
flags for whether `read_dir` succeeds and whether writes into the
destination succeed. The external code generator is an opaque parameter of
the top-level run; its call sites and configuration are modelled exactly.
-/

set_option autoImplicit false

namespace ProtoBuild

/-- Errors surfaced by the script, tagged by origin so that failures of
`create_dir_all`, `read_dir`, the per-item `entry?`, `fs::copy`, and the
generator can be told apart (in Rust they are all boxed `dyn Error`). -/
inductive Err where
  | createDirFailed
  | readDirFailed
  | entryFailed
  | copyFailed (name : String)
  | genFailed (msg : String)
deriving DecidableEq, Repr

/-- A resolved directory entry of the source directory: its file-name
component, whether it is a directory, its byte content (meaningful for
non-directories), and whether reading it for a copy succeeds. -/
structure Entry where
  name : String
  isDir : Bool
  content : List Nat
  readable : Bool
deriving DecidableEq, Repr

/-- One item yielded by the `read_dir` iterator: either a resolved entry
or an I/O error (the `entry?` line propagates the latter). -/
inductive ReadItem where
  | entryErr
  | entry (e : Entry)
deriving DecidableEq, Repr

/-- The state of the destination path `proto`: absent, an existing
directory with its files, or occupied by a non-directory (which makes
`create_dir_all` fail). -/
inductive DestNode where
  | absent
  | directory (files : List (String × List Nat))
  | fileNode
deriving DecidableEq, Repr

/-- The filesystem state the script observes: the source directory listing
(`none` when `../src/main/protobuf` does not exist), whether `read_dir` on
it succeeds, the destination path state, and whether writes into the
destination directory succeed. -/
structure FS where
  source : Option (List ReadItem)
  sourceListable : Bool
  dest : DestNode
  destWritable : Bool
deriving DecidableEq, Repr

/-- Core of `Path::extension`, on the reversed character list of a file
name: the characters after the last dot, unless there is no dot or the
only dot is the leading character of the name. -/
def extCore : List Char → List Char → Option (List Char)
  | [], _ => none
  | c :: rest, acc =>
    if c = '.' then (if rest.isEmpty then none else some acc)
    else extCore rest (c :: acc)

/-- `Path::extension` of a single-component file name: the suffix after
the last `.`, or `none` when the name has no `.` past its first
character (so `"foo"` and `".gitignore"` have no extension). -/
def extension (name : String) : Option String :=
  (extCore name.data.reverse []).map fun l => ⟨l⟩

/-- The filter of the staging loop:
`path.extension().map_or(false, |ext| ext == "proto")`. -/
def extMatches (name : String) : Bool :=
  ((extension name).map fun e => e == "proto").getD false

/-- `Path::file_name` of `source_dir.join(name)` for a single-component
entry name: `none` exactly when the joined path has no final normal
component. The `unwrap` in the script panics on `none`. -/
def joinedFileName (name : String) : Option String :=
  if name = "" ∨ name = ".." then none else some name

/-- The fixed source directory path of the script. -/
def sourceDirPath : String := "../src/main/protobuf"

/-- The `cargo:rerun-if-changed=` line printed for a staged source file,
with `path.display()` rendering `source_dir.join(name)`. -/
def rerunDecl (name : String) : String :=
  "cargo:rerun-if-changed=" ++ sourceDirPath ++ "/" ++ name

/-- Whether `fs::copy` of an entry into the destination succeeds: the
source must be a readable regular file and the destination writable
(`fs::copy` fails on a directory source). -/
def copyOkB (e : Entry) (w : Bool) : Bool :=
  !e.isDir && e.readable && w

/-- Association-list lookup of a destination file by name. -/
def lookupFile : List (String × List Nat) → String → Option (List Nat)
  | [], _ => none
  | (m, c) :: rest, n => if m = n then some c else lookupFile rest n

/-- Association-list overwrite-or-insert of a destination file, the
effect of a successful `fs::copy` into the destination directory. -/
def setFile : List (String × List Nat) → String → List Nat → List (String × List Nat)
  | [], n, c => [(n, c)]
  | (m, b) :: rest, n, c =>
    if m = n then (n, c) :: rest else (m, b) :: setFile rest n c

deriving instance DecidableEq for Except

/-- The observable outcome of the staging step: its result value, the
final state of the destination path, and the sequence of
`cargo:rerun-if-changed=` lines printed, in order. -/
structure StageOut where
  res : Except Err Unit
  dest : DestNode
  emissions : List String
deriving DecidableEq, Repr

/-- The `for entry in fs::read_dir(source_dir)?` loop, threading the
destination directory contents and the emitted lines. `none` models a
panic of the `unwrap` on `file_name`. -/
def stageLoop (w : Bool) :
    List ReadItem → List (String × List Nat) → List String → Option StageOut
  | [], d, ems => some ⟨.ok (), .directory d, ems⟩
  | .entryErr :: _, d, ems => some ⟨.error .entryFailed, .directory d, ems⟩
  | .entry ent :: rest, d, ems =>
    if extMatches ent.name then
      match joinedFileName ent.name with
      | none => none
      | some fname =>
        if copyOkB ent w then
          stageLoop w rest (setFile d fname ent.content) (ems ++ [rerunDecl ent.name])
        else some ⟨.error (.copyFailed ent.name), .directory d, ems⟩
    else stageLoop w rest d ems

/-- The prior contents of the destination directory as seen right after a
successful `create_dir_all`: empty when the path was absent. -/
def destFiles : DestNode → List (String × List Nat)
  | .absent => []
  | .directory d => d
  | .fileNode => []

/-- The staging step (lines 8 to 21 of the script): `create_dir_all` on
the destination, then, when the source directory exists, the copy loop
over its `read_dir` listing. -/
def staging (fs : FS) : Option StageOut :=
  match fs.dest with
  | .fileNode => some ⟨.error .createDirFailed, fs.dest, []⟩
  | _ =>
    match fs.source with
    | none => some ⟨.ok (), .directory (destFiles fs.dest), []⟩
    | some entries =>
      if fs.sourceListable then stageLoop fs.destWritable entries (destFiles fs.dest) []
      else some ⟨.error .readDirFailed, .directory (destFiles fs.dest), []⟩

/-- The configuration handed to the external code generator. -/
structure CodegenConfig where
  build_server : Bool
  build_client : Bool
  protos : List String
  includes : List String
deriving DecidableEq, Repr

/-- The single generator invocation of the script:
`configure().build_server(true).build_client(true).compile_protos(&["proto/hello.proto"], &["proto"])`. -/
def tonicInvocation : CodegenConfig :=
  ⟨true, true, ["proto/hello.proto"], ["proto"]⟩

/-- The observable outcome of a whole run of `main`: its result, the
final destination state, the emitted lines, and the list of generator
invocations made, in order. -/
structure RunOut where
  res : Except Err Unit
  dest : DestNode
  emissions : List String
  genCalls : List CodegenConfig
deriving DecidableEq, Repr

/-- `main`: staging, then the generator call, each followed by `?`; the
generator itself is external and passed in as an opaque function. -/
def mainRun (gen : CodegenConfig → Except Err Unit) (fs : FS) : Option RunOut :=
  match staging fs with
  | none => none
  | some s =>
    match s.res with
    | .error e => some ⟨.error e, s.dest, s.emissions, []⟩
    | .ok _ =>
      match gen tonicInvocation with
      | .error e => some ⟨.error e, s.dest, s.emissions, [tonicInvocation]⟩
      | .ok _ => some ⟨.ok (), s.dest, s.emissions, [tonicInvocation]⟩

/-- An entry name as `read_dir` actually yields it: non-empty and neither
`.` nor `..`. -/
def nameOkB (n : String) : Bool :=
  (!(n == "")) && (!(n == ".")) && (!(n == ".."))

/-- Well-formedness of one `read_dir` item. -/
def itemWfB : ReadItem → Bool
  | .entryErr => true
  | .entry e => nameOkB e.name

/-- The resolved entries of a listing, in order. -/
def okEntries : List ReadItem → List Entry
  | [] => []
  | .entryErr :: rest => okEntries rest
  | .entry e :: rest => e :: okEntries rest

/-- The names of the resolved entries of a listing, in order. -/
def okNames (l : List ReadItem) : List String :=
  (okEntries l).map Entry.name

/-- The resolved entries whose extension matches, in order: exactly the
entries the loop copies and emits for. -/
def matchingEntries (l : List ReadItem) : List Entry :=
  (okEntries l).filter fun e => extMatches e.name

/-- Copies applied in loop order: fold of `setFile` over a list of
entries. -/
def applyCopies (es : List Entry) (d : List (String × List Nat)) :
    List (String × List Nat) :=
  es.foldl (fun d e => setFile d e.name e.content) d

/-- Well-formedness of a filesystem state: every resolved entry of the
source listing has a name `read_dir` could yield, and the resolved names
are pairwise distinct, as in a real directory. -/
def FS.wfb (fs : FS) : Bool :=
  match fs.source with
  | none => true
  | some l => l.all itemWfB && decide (okNames l).Nodup

/-- Replacing the destination state of a filesystem, leaving the source
side untouched: the state seen by a second run of the script. -/
def setDest (fs : FS) (d : DestNode) : FS :=
  ⟨fs.source, fs.sourceListable, d, fs.destWritable⟩

/-- Replacing the source listing of a filesystem, leaving everything else
untouched: used to state that an entry contributes nothing to staging by
comparing against the listing with that entry deleted. -/
def setSource (fs : FS) (l : List ReadItem) : FS :=
  ⟨some l, fs.sourceListable, fs.dest, fs.destWritable⟩

/-! ### Association-list lemmas for the destination directory -/

theorem lookupFile_set_self (d : List (String × List Nat)) (n : String) (c : List Nat) :
    lookupFile (setFile d n c) n = some c := by
  induction d with
  | nil => simp [setFile, lookupFile]
  | cons p rest ih =>
    obtain ⟨m, b⟩ := p
    by_cases h : m = n
    · simp [setFile, h, lookupFile]
    · simp [setFile, h, lookupFile, ih]

theorem lookupFile_set_ne (d : List (String × List Nat)) (n : String) (c : List Nat)
    (m : String) (h : m ≠ n) : lookupFile (setFile d n c) m = lookupFile d m := by
  induction d with
  | nil => simp [setFile, lookupFile, Ne.symm h]
  | cons p rest ih =>
    obtain ⟨k, b⟩ := p
    by_cases hk : k = n
    · subst hk
      simp [setFile, lookupFile, Ne.symm h]
    · simp [setFile, hk, lookupFile, ih]

theorem setFile_eq_of_lookup (d : List (String × List Nat)) (n : String) (c : List Nat)
    (h : lookupFile d n = some c) : setFile d n c = d := by
  induction d with
  | nil => simp [lookupFile] at h
  | cons p rest ih =>
    obtain ⟨m, b⟩ := p
    by_cases hm : m = n
    · subst hm
      simp [lookupFile] at h
      simp [setFile, h]
    · rw [lookupFile, if_neg hm] at h
      simp [setFile, hm, ih h]

@[simp] theorem applyCopies_nil (d : List (String × List Nat)) : applyCopies [] d = d := rfl

@[simp] theorem applyCopies_cons (e : Entry) (es : List Entry) (d : List (String × List Nat)) :
    applyCopies (e :: es) d = applyCopies es (setFile d e.name e.content) := rfl

theorem lookupFile_applyCopies_not_mem (es : List Entry) (d : List (String × List Nat))
    (n : String) (h : n ∉ es.map Entry.name) :
    lookupFile (applyCopies es d) n = lookupFile d n := by
  induction es generalizing d with
  | nil => rfl
  | cons e rest ih =>
    rw [List.map_cons, List.mem_cons] at h
    push_neg at h
    rw [applyCopies_cons, ih _ h.2, lookupFile_set_ne _ _ _ _ h.1]

theorem lookupFile_applyCopies_mem (es : List Entry) :
    ∀ (d : List (String × List Nat)) (e : Entry),
      (es.map Entry.name).Nodup → e ∈ es →
      lookupFile (applyCopies es d) e.name = some e.content := by
  induction es with
  | nil =>
    intro d e _ he
    cases he
  | cons a rest ih =>
    intro d e hnd he
    rw [List.map_cons, List.nodup_cons] at hnd
    rcases List.mem_cons.mp he with h | h
    · subst h
      rw [applyCopies_cons, lookupFile_applyCopies_not_mem _ _ _ hnd.1, lookupFile_set_self]
    · exact ih _ e hnd.2 h

theorem applyCopies_self (es : List Entry) (d : List (String × List Nat))
    (h : ∀ e ∈ es, lookupFile d e.name = some e.content) : applyCopies es d = d := by
  induction es with
  | nil => rfl
  | cons a rest ih =>
    rw [applyCopies_cons, setFile_eq_of_lookup _ _ _ (h a (List.mem_cons_self a rest))]
    exact ih fun e he => h e (List.mem_cons_of_mem a he)

theorem applyCopies_idem (es : List Entry) (d : List (String × List Nat))
    (hnd : (es.map Entry.name).Nodup) :
    applyCopies es (applyCopies es d) = applyCopies es d :=
  applyCopies_self _ _ fun e he => lookupFile_applyCopies_mem es d e hnd he

theorem lookupFile_applyCopies_all (es : List Entry) (d : List (String × List Nat))
    (hnd : (es.map Entry.name).Nodup) :
    ∀ e ∈ es, lookupFile (applyCopies es d) e.name = some e.content :=
  fun e he => lookupFile_applyCopies_mem es d e hnd he

/-! ### Lemmas on listings and well-formedness -/

theorem mem_okEntries (l : List ReadItem) (e : Entry) :
    e ∈ okEntries l ↔ ReadItem.entry e ∈ l := by
  induction l with
  | nil => simp [okEntries]
  | cons i rest ih =>
    cases i with
    | entryErr => simp [okEntries, ih]
    | entry f => simp [okEntries, List.mem_cons, ih]

theorem okEntries_append (l₁ l₂ : List ReadItem) :
    okEntries (l₁ ++ l₂) = okEntries l₁ ++ okEntries l₂ := by
  induction l₁ with
  | nil => simp [okEntries]
  | cons i rest ih =>
    cases i with
    | entryErr => simpa [okEntries] using ih
    | entry f => simp [okEntries, ih]

theorem okNames_append (l₁ l₂ : List ReadItem) :
    okNames (l₁ ++ l₂) = okNames l₁ ++ okNames l₂ := by
  simp [okNames, okEntries_append]

@[simp] theorem matchingEntries_nil : matchingEntries [] = [] := rfl

@[simp] theorem matchingEntries_cons_err (l : List ReadItem) :
    matchingEntries (ReadItem.entryErr :: l) = matchingEntries l := rfl

theorem matchingEntries_cons_pos (e : Entry) (l : List ReadItem)
    (h : extMatches e.name = true) :
    matchingEntries (ReadItem.entry e :: l) = e :: matchingEntries l := by
  simp [matchingEntries, okEntries, List.filter_cons, h]

theorem matchingEntries_cons_neg (e : Entry) (l : List ReadItem)
    (h : extMatches e.name = false) :
    matchingEntries (ReadItem.entry e :: l) = matchingEntries l := by
  simp [matchingEntries, okEntries, List.filter_cons, h]

theorem mem_matchingEntries (l : List ReadItem) (e : Entry) :
    e ∈ matchingEntries l ↔ ReadItem.entry e ∈ l ∧ extMatches e.name = true := by
  simp [matchingEntries, List.mem_filter, mem_okEntries]

theorem matchingEntries_names_sublist (l : List ReadItem) :
    ((matchingEntries l).map Entry.name).Sublist (okNames l) :=
  ((List.filter_sublist _).map _ : _)

theorem matchingEntries_names_nodup (l : List ReadItem) (h : (okNames l).Nodup) :
    ((matchingEntries l).map Entry.name).Nodup :=
  h.sublist (matchingEntries_names_sublist l)

theorem name_mem_okNames (l : List ReadItem) (e : Entry) (h : ReadItem.entry e ∈ l) :
    e.name ∈ okNames l :=
  List.mem_map_of_mem Entry.name ((mem_okEntries l e).mpr h)

theorem wfb_names (fs : FS) (l : List ReadItem) (hwf : fs.wfb = true)
    (hsrc : fs.source = some l) : ∀ i ∈ l, itemWfB i = true := by
  unfold FS.wfb at hwf
  rw [hsrc] at hwf
  simp only [Bool.and_eq_true, List.all_eq_true] at hwf
  exact hwf.1

theorem wfb_nodup (fs : FS) (l : List ReadItem) (hwf : fs.wfb = true)
    (hsrc : fs.source = some l) : (okNames l).Nodup := by
  unfold FS.wfb at hwf
  rw [hsrc] at hwf
  simp only [Bool.and_eq_true, decide_eq_true_eq] at hwf
  exact hwf.2

theorem joinedFileName_of_nameOk (n : String) (h : nameOkB n = true) :
    joinedFileName n = some n := by
  simp only [nameOkB, Bool.and_eq_true, Bool.not_eq_true', beq_eq_false_iff_ne] at h
  simp [joinedFileName, h.1.1, h.2]

theorem joinedFileName_some_eq (n m : String) (h : joinedFileName n = some m) : m = n := by
  unfold joinedFileName at h
  by_cases hc : n = "" ∨ n = ".."
  · rw [if_pos hc] at h
    cases h
  · rw [if_neg hc] at h
    exact (Option.some_inj.mp h).symm

theorem copyOkB_true (e : Entry) (w : Bool) (h : copyOkB e w = true) :
    e.isDir = false ∧ e.readable = true ∧ w = true := by
  simpa [copyOkB, Bool.and_eq_true, Bool.not_eq_true', and_assoc] using h

/-! ### Characterization of the staging loop -/

theorem stageLoop_cons_entry (w : Bool) (e : Entry) (rest : List ReadItem)
    (d : List (String × List Nat)) (ems : List String) :
    stageLoop w (ReadItem.entry e :: rest) d ems =
      (if extMatches e.name then
        match joinedFileName e.name with
        | none => none
        | some fname =>
          if copyOkB e w then
            stageLoop w rest (setFile d fname e.content) (ems ++ [rerunDecl e.name])
          else some ⟨.error (.copyFailed e.name), .directory d, ems⟩
      else stageLoop w rest d ems) := rfl

theorem stageLoop_skip (w : Bool) (e : Entry) (hnm : extMatches e.name = false) :
    ∀ (l₁ l₂ : List ReadItem) (d : List (String × List Nat)) (ems : List String),
      stageLoop w (l₁ ++ ReadItem.entry e :: l₂) d ems = stageLoop w (l₁ ++ l₂) d ems := by
  intro l₁
  induction l₁ with
  | nil =>
    intro l₂ d ems
    rw [List.nil_append, List.nil_append, stageLoop_cons_entry, if_neg (by simp [hnm])]
  | cons i rest ih =>
    intro l₂ d ems
    cases i with
    | entryErr => rfl
    | entry f =>
      rw [List.cons_append, List.cons_append, stageLoop_cons_entry, stageLoop_cons_entry]
      cases hm : extMatches f.name with
      | false => rw [if_neg (by simp [hm]), if_neg (by simp [hm]), ih]
      | true =>
        rw [if_pos (by simp [hm]), if_pos (by simp [hm])]
        cases hj : joinedFileName f.name with
        | none => rfl
        | some fname =>
          cases hc : copyOkB f w with
          | false => simp only [hc, Bool.false_eq_true, if_false]
          | true => simp only [hc, if_true, ih]

theorem stageLoop_ok_run (w : Bool) (l : List ReadItem) :
    ∀ (d : List (String × List Nat)) (ems : List String),
      (∀ i ∈ l, i ≠ ReadItem.entryErr) →
      (∀ i ∈ l, itemWfB i = true) →
      (∀ e, ReadItem.entry e ∈ l → extMatches e.name = true → copyOkB e w = true) →
      stageLoop w l d ems =
        some ⟨.ok (), .directory (applyCopies (matchingEntries l) d),
          ems ++ (matchingEntries l).map fun e => rerunDecl e.name⟩ := by
  induction l with
  | nil =>
    intro d ems _ _ _
    simp [stageLoop]
  | cons i rest ih =>
    intro d ems hitems hwf hcopy
    cases i with
    | entryErr => exact absurd rfl (hitems _ (List.mem_cons_self _ _))
    | entry e =>
      have hwfe : nameOkB e.name = true := hwf _ (List.mem_cons_self _ _)
      have ihr := fun d2 ems2 => ih d2 ems2 (fun i hi => hitems i (List.mem_cons_of_mem _ hi))
        (fun i hi => hwf i (List.mem_cons_of_mem _ hi))
        (fun f hf hm => hcopy f (List.mem_cons_of_mem _ hf) hm)
      cases hm : extMatches e.name with
      | false =>
        rw [stageLoop_cons_entry, if_neg (by simp [hm]), ihr,
          matchingEntries_cons_neg _ _ hm]
      | true =>
        have hc := hcopy e (List.mem_cons_self _ _) hm
        rw [stageLoop_cons_entry, if_pos (by simp [hm]),
          joinedFileName_of_nameOk _ hwfe]
        simp only [hc, if_true, ihr, matchingEntries_cons_pos _ _ hm,
          applyCopies_cons, List.map_cons, List.append_assoc, List.singleton_append]

theorem stageLoop_ok_inv (w : Bool) (l : List ReadItem) :
    ∀ (d : List (String × List Nat)) (ems : List String) (out : StageOut),
      stageLoop w l d ems = some out → out.res = .ok () →
      out.dest = .directory (applyCopies (matchingEntries l) d) ∧
      out.emissions = ems ++ (matchingEntries l).map (fun e => rerunDecl e.name) ∧
      (∀ i ∈ l, i ≠ ReadItem.entryErr) ∧
      (∀ e, ReadItem.entry e ∈ l → extMatches e.name = true → copyOkB e w = true) := by
  induction l with
  | nil =>
    intro d ems out h hok
    rw [stageLoop] at h
    obtain rfl := Option.some_inj.mp h.symm
    simp
  | cons i rest ih =>
    intro d ems out h hok
    cases i with
    | entryErr =>
      rw [stageLoop] at h
      obtain rfl := Option.some_inj.mp h.symm
      cases hok
    | entry e =>
      rw [stageLoop_cons_entry] at h
      cases hm : extMatches e.name with
      | false =>
        rw [if_neg (by simp [hm])] at h
        obtain ⟨hdest, hems, hitems, hcopy⟩ := ih _ _ _ h hok
        refine ⟨?_, ?_, ?_, ?_⟩
        · rw [hdest, matchingEntries_cons_neg _ _ hm]
        · rw [hems, matchingEntries_cons_neg _ _ hm]
        · intro i hi
          rcases List.mem_cons.mp hi with rfl | hi
          · exact fun hh => ReadItem.noConfusion hh
          · exact hitems i hi
        · intro f hf hmf
          rcases List.mem_cons.mp hf with hh | hf
          · obtain rfl := (ReadItem.entry.injEq _ _).mp hh
            rw [hmf] at hm
            cases hm
          · exact hcopy f hf hmf
      | true =>
        rw [if_pos (by simp [hm])] at h
        cases hj : joinedFileName e.name with
        | none =>
          rw [hj] at h
          cases h
        | some fname =>
          obtain rfl := joinedFileName_some_eq _ _ hj
          rw [hj] at h
          cases hc : copyOkB e w with
          | false =>
            rw [hc] at h
            simp only [Bool.false_eq_true, if_false] at h
            obtain rfl := Option.some_inj.mp h.symm
            cases hok
          | true =>
            rw [hc] at h
            simp only [if_true] at h
            obtain ⟨hdest, hems, hitems, hcopy⟩ := ih _ _ _ h hok
            refine ⟨?_, ?_, ?_, ?_⟩
            · rw [hdest, matchingEntries_cons_pos _ _ hm, applyCopies_cons]
            · rw [hems, matchingEntries_cons_pos _ _ hm, List.map_cons,
                List.append_assoc, List.singleton_append]
            · intro i hi
              rcases List.mem_cons.mp hi with rfl | hi
              · exact fun hh => ReadItem.noConfusion hh
              · exact hitems i hi
            · intro f hf hmf
              rcases List.mem_cons.mp hf with hh | hf
              · obtain rfl := (ReadItem.entry.injEq _ _).mp hh
                exact hc
              · exact hcopy f hf hmf

theorem stageLoop_copyfail_inv (w : Bool) (l : List ReadItem) :
    ∀ (d : List (String × List Nat)) (ems : List String) (out : StageOut) (n : String),
      stageLoop w l d ems = some out → out.res = .error (Err.copyFailed n) →
      ∃ l₁ e l₂, l = l₁ ++ ReadItem.entry e :: l₂ ∧ e.name = n ∧
        extMatches e.name = true ∧ copyOkB e w = false ∧
        (∀ i ∈ l₁, i ≠ ReadItem.entryErr) ∧
        (∀ f, ReadItem.entry f ∈ l₁ → extMatches f.name = true → copyOkB f w = true) ∧
        out.dest = DestNode.directory (applyCopies (matchingEntries l₁) d) ∧
        out.emissions = ems ++ (matchingEntries l₁).map fun f => rerunDecl f.name := by
  induction l with
  | nil =>
    intro d ems out n h he
    rw [stageLoop] at h
    obtain rfl := Option.some_inj.mp h.symm
    cases he
  | cons i rest ih =>
    intro d ems out n h he
    cases i with
    | entryErr =>
      rw [stageLoop] at h
      obtain rfl := Option.some_inj.mp h.symm
      cases he
    | entry e =>
      rw [stageLoop_cons_entry] at h
      cases hm : extMatches e.name with
      | false =>
        rw [if_neg (by simp [hm])] at h
        obtain ⟨l₁, f, l₂, hsplit, hn, hmf, hcf, hitems, hcopy, hdest, hems⟩ :=
          ih _ _ _ _ h he
        refine ⟨ReadItem.entry e :: l₁, f, l₂, by rw [hsplit, List.cons_append],
          hn, hmf, hcf, ?_, ?_, ?_, ?_⟩
        · intro i hi
          rcases List.mem_cons.mp hi with rfl | hi
          · exact fun hh => ReadItem.noConfusion hh
          · exact hitems i hi
        · intro g hg hmg
          rcases List.mem_cons.mp hg with hh | hg
          · obtain rfl := (ReadItem.entry.injEq _ _).mp hh
            rw [hmg] at hm
            cases hm
          · exact hcopy g hg hmg
        · rw [hdest, matchingEntries_cons_neg _ _ hm]
        · rw [hems, matchingEntries_cons_neg _ _ hm]
      | true =>
        rw [if_pos (by simp [hm])] at h
        cases hj : joinedFileName e.name with
        | none =>
          rw [hj] at h
          cases h
        | some fname =>
          obtain rfl := joinedFileName_some_eq _ _ hj
          rw [hj] at h
          cases hc : copyOkB e w with
          | false =>
            rw [hc] at h
            simp only [Bool.false_eq_true, if_false] at h
            obtain rfl := Option.some_inj.mp h.symm
            have hn : e.name = n := by
              have := he
              simp only [Except.error.injEq] at this
              exact (Err.copyFailed.injEq _ _).mp this
            exact ⟨[], e, rest, rfl, hn, hm, hc, by simp, by simp, by simp, by simp⟩
          | true =>
            rw [hc] at h
            simp only [if_true] at h
            obtain ⟨l₁, f, l₂, hsplit, hn, hmf, hcf, hitems, hcopy, hdest, hems⟩ :=
              ih _ _ _ _ h he
            refine ⟨ReadItem.entry e :: l₁, f, l₂, by rw [hsplit, List.cons_append],
              hn, hmf, hcf, ?_, ?_, ?_, ?_⟩
            · intro i hi
              rcases List.mem_cons.mp hi with rfl | hi
              · exact fun hh => ReadItem.noConfusion hh
              · exact hitems i hi
            · intro g hg hmg
              rcases List.mem_cons.mp hg with hh | hg
              · obtain rfl := (ReadItem.entry.injEq _ _).mp hh
                exact hc
              · exact hcopy g hg hmg
            · rw [hdest, matchingEntries_cons_pos _ _ hm, applyCopies_cons]
            · rw [hems, matchingEntries_cons_pos _ _ hm, List.map_cons,
                List.append_assoc, List.singleton_append]

theorem rerunDecl_inj (m n : String) (h : rerunDecl m = rerunDecl n) : m = n := by
  have h2 := congrArg String.data h
  simp only [rerunDecl, String.data_append] at h2
  exact congrArg String.mk (List.append_cancel_left h2)

theorem stageLoop_total (w : Bool) (l : List ReadItem) :
    ∀ (d : List (String × List Nat)) (ems : List String),
      (∀ i ∈ l, itemWfB i = true) →
      ∃ out, stageLoop w l d ems = some out := by
  induction l with
  | nil =>
    intro d ems _
    exact ⟨_, rfl⟩
  | cons i rest ih =>
    intro d ems hwf
    cases i with
    | entryErr => exact ⟨_, rfl⟩
    | entry e =>
      have hwfe : nameOkB e.name = true := hwf _ (List.mem_cons_self _ _)
      have ihr := fun d2 ems2 => ih d2 ems2 (fun i hi => hwf i (List.mem_cons_of_mem _ hi))
      cases hm : extMatches e.name with
      | false =>
        obtain ⟨out, hout⟩ := ihr d ems
        exact ⟨out, by rw [stageLoop_cons_entry, if_neg (by simp [hm]), hout]⟩
      | true =>
        cases hc : copyOkB e w with
        | false =>
          refine ⟨⟨.error (.copyFailed e.name), .directory d, ems⟩, ?_⟩
          rw [stageLoop_cons_entry, if_pos (by simp [hm]),
            joinedFileName_of_nameOk _ hwfe]
          simp only [hc, Bool.false_eq_true, if_false]
        | true =>
          obtain ⟨out, hout⟩ := ihr (setFile d e.name e.content) (ems ++ [rerunDecl e.name])
          refine ⟨out, ?_⟩
          rw [stageLoop_cons_entry, if_pos (by simp [hm]),
            joinedFileName_of_nameOk _ hwfe]
          simp only [hc, if_true, hout]

/-! ### Characterization of the staging step -/

theorem staging_dest_occupied (fs : FS) (hd : fs.dest = DestNode.fileNode) :
    staging fs = some ⟨.error .createDirFailed, fs.dest, []⟩ := by
  simp only [staging, hd]

theorem staging_no_source (fs : FS) (hsrc : fs.source = none)
    (hd : fs.dest ≠ DestNode.fileNode) :
    staging fs = some ⟨.ok (), DestNode.directory (destFiles fs.dest), []⟩ := by
  cases hdest : fs.dest with
  | fileNode => exact absurd hdest hd
  | absent => simp [staging, hdest, hsrc, destFiles]
  | directory d => simp [staging, hdest, hsrc, destFiles]

theorem staging_eq_loop (fs : FS) (l : List ReadItem) (hsrc : fs.source = some l)
    (hd : fs.dest ≠ DestNode.fileNode) (hl : fs.sourceListable = true) :
    staging fs = stageLoop fs.destWritable l (destFiles fs.dest) [] := by
  cases hdest : fs.dest with
  | fileNode => exact absurd hdest hd
  | absent => simp [staging, hdest, hsrc, hl, destFiles]
  | directory d => simp [staging, hdest, hsrc, hl, destFiles]

theorem staging_not_listable (fs : FS) (l : List ReadItem) (hsrc : fs.source = some l)
    (hd : fs.dest ≠ DestNode.fileNode) (hl : fs.sourceListable = false) :
    staging fs = some ⟨.error .readDirFailed, .directory (destFiles fs.dest), []⟩ := by
  cases hdest : fs.dest with
  | fileNode => exact absurd hdest hd
  | absent => simp [staging, hdest, hsrc, hl, destFiles]
  | directory d => simp [staging, hdest, hsrc, hl, destFiles]

theorem staging_err_cases (fs : FS) (out : StageOut) (h : staging fs = some out)
    (herr : out.res ≠ .ok ()) :
    fs.dest ≠ DestNode.fileNode →
    ∃ l, fs.source = some l ∧
      (fs.sourceListable = false ∧ out = ⟨.error .readDirFailed, .directory (destFiles fs.dest), []⟩ ∨
       fs.sourceListable = true ∧ stageLoop fs.destWritable l (destFiles fs.dest) [] = some out) := by
  intro hd
  cases hsrc : fs.source with
  | none =>
    rw [staging_no_source fs hsrc hd] at h
    obtain rfl := Option.some_inj.mp h.symm
    exact absurd rfl herr
  | some l =>
    cases hl : fs.sourceListable with
    | false =>
      rw [staging_not_listable fs l hsrc hd hl] at h
      exact ⟨l, rfl, Or.inl ⟨rfl, Option.some_inj.mp h.symm⟩⟩
    | true =>
      rw [staging_eq_loop fs l hsrc hd hl] at h
      exact ⟨l, rfl, Or.inr ⟨rfl, h⟩⟩

theorem staging_ok_cases (fs : FS) (out : StageOut) (h : staging fs = some out)
    (hok : out.res = .ok ()) :
    fs.dest ≠ DestNode.fileNode ∧
    ((fs.source = none ∧ out = ⟨.ok (), .directory (destFiles fs.dest), []⟩) ∨
     (∃ l, fs.source = some l ∧ fs.sourceListable = true ∧
        stageLoop fs.destWritable l (destFiles fs.dest) [] = some out)) := by
  have hd : fs.dest ≠ DestNode.fileNode := by
    intro hdest
    rw [staging_dest_occupied fs hdest] at h
    obtain rfl := Option.some_inj.mp h.symm
    cases hok
  refine ⟨hd, ?_⟩
  cases hsrc : fs.source with
  | none =>
    rw [staging_no_source fs hsrc hd] at h
    exact Or.inl ⟨rfl, Option.some_inj.mp h.symm⟩
  | some l =>
    cases hl : fs.sourceListable with
    | false =>
      rw [staging_not_listable fs l hsrc hd hl] at h
      obtain rfl := Option.some_inj.mp h.symm
      cases hok
    | true =>
      rw [staging_eq_loop fs l hsrc hd hl] at h
      exact Or.inr ⟨l, rfl, rfl, h⟩

/-! ### Characterization of the top-level run -/

theorem mainRun_stage_err (gen : CodegenConfig → Except Err Unit) (fs : FS)
    (s : StageOut) (e : Err) (hs : staging fs = some s) (he : s.res = .error e) :
    mainRun gen fs = some ⟨.error e, s.dest, s.emissions, []⟩ := by
  simp [mainRun, hs, he]

theorem mainRun_stage_ok (gen : CodegenConfig → Except Err Unit) (fs : FS)
    (s : StageOut) (hs : staging fs = some s) (hok : s.res = .ok ()) :
    mainRun gen fs = some ⟨gen tonicInvocation, s.dest, s.emissions, [tonicInvocation]⟩ := by
  cases hg : gen tonicInvocation with
  | error e => simp [mainRun, hs, hok, hg]
  | ok u =>
    cases u
    simp [mainRun, hs, hok, hg]

/-! ### Concrete states used by the witnesses -/

def helloEntry : Entry := ⟨"hello.proto", false, [104, 105], true⟩

def notesEntry : Entry := ⟨"notes.txt", false, [1], true⟩

def fsA : FS :=
  ⟨some [ReadItem.entry helloEntry, ReadItem.entry notesEntry], true, .directory [], true⟩

def outA : StageOut :=
  ⟨.ok (), .directory [("hello.proto", [104, 105])], [rerunDecl "hello.proto"]⟩

def fsB : FS := ⟨none, true, DestNode.absent, true⟩

def fsC : FS := ⟨none, false, DestNode.directory [("old.txt", [2])], false⟩

def deltaEntry : Entry := ⟨"d.proto", false, [3, 4], true⟩

def fsD : FS := ⟨some [ReadItem.entry deltaEntry], true, DestNode.absent, true⟩

def outD : StageOut :=
  ⟨.ok (), .directory [("d.proto", [3, 4])], [rerunDecl "d.proto"]⟩

def fsE : FS :=
  ⟨some [ReadItem.entry ⟨"k.proto", false, [11], true⟩,
    ReadItem.entry ⟨"subdir", true, [], true⟩], true,
    DestNode.directory [("keep.proto", [9])], true⟩

def fsF : FS :=
  ⟨some [ReadItem.entry ⟨"f.proto", false, [6], true⟩], true, DestNode.directory [], true⟩

def outF : StageOut :=
  ⟨.ok (), .directory [("f.proto", [6])], [rerunDecl "f.proto"]⟩

def fsG : FS :=
  ⟨some [ReadItem.entry ⟨"x.proto", false, [5], true⟩], true, DestNode.fileNode, true⟩

def fsH : FS :=
  ⟨some [ReadItem.entry ⟨"ok.proto", false, [7], true⟩,
    ReadItem.entry ⟨"bad.proto", false, [8], false⟩], true, DestNode.absent, true⟩

def outH : StageOut :=
  ⟨.error (Err.copyFailed "bad.proto"), .directory [("ok.proto", [7])],
    [rerunDecl "ok.proto"]⟩

def fsI : FS := ⟨none, true, DestNode.directory [], true⟩

def fsJ : FS :=
  ⟨some [ReadItem.entry ⟨"hi.proto", false, [], true⟩], true, DestNode.absent, true⟩

/-! ### The claims -/

/-- Claim C1: after the staging step returns successfully over an
existing source directory, the destination is a directory holding a
byte-identical, same-named copy of every immediate entry whose extension
is `proto` (such entries are necessarily regular files on success), and
any name not belonging to some matching source entry still has exactly
the contents the destination directory had right after its creation —
so no non-matching or extension-less source entry is copied. -/
theorem C1_staging_copies (fs : FS) (l : List ReadItem) (out : StageOut)
    (hwf : fs.wfb = true) (hsrc : fs.source = some l)
    (h : staging fs = some out) (hok : out.res = .ok ()) :
    ∃ d, out.dest = DestNode.directory d ∧
      (∀ e, ReadItem.entry e ∈ l → extMatches e.name = true →
        e.isDir = false ∧ lookupFile d e.name = some e.content) ∧
      (∀ n, (∀ e, ReadItem.entry e ∈ l → extMatches e.name = true → e.name ≠ n) →
        lookupFile d n = lookupFile (destFiles fs.dest) n) := by
  obtain ⟨hd, hcases⟩ := staging_ok_cases fs out h hok
  rcases hcases with ⟨hnone, _⟩ | ⟨l2, hsrc2, hl, hloop⟩
  · rw [hsrc] at hnone
    cases hnone
  · rw [hsrc] at hsrc2
    obtain rfl := Option.some_inj.mp hsrc2
    obtain ⟨hdest, hems, hitems, hcopy⟩ := stageLoop_ok_inv _ _ _ _ _ hloop hok
    have hnd := matchingEntries_names_nodup l (wfb_nodup fs l hwf hsrc)
    refine ⟨applyCopies (matchingEntries l) (destFiles fs.dest), hdest, ?_, ?_⟩
    · intro e he hm
      have hc := copyOkB_true _ _ (hcopy e he hm)
      exact ⟨hc.1,
        lookupFile_applyCopies_mem _ _ e hnd ((mem_matchingEntries l e).mpr ⟨he, hm⟩)⟩
    · intro n hn
      apply lookupFile_applyCopies_not_mem
      intro hmem
      obtain ⟨e, hem, hname⟩ := List.mem_map.mp hmem
      have hprops := (mem_matchingEntries l e).mp hem
      exact hn e hprops.1 hprops.2 hname

/-- Witness for C1 at a two-entry source directory holding `hello.proto`
and `notes.txt`. -/
theorem C1_staging_copies_witness :
    fsA.wfb = true ∧ staging fsA = some outA ∧ outA.res = .ok () ∧
    (∃ d, outA.dest = DestNode.directory d ∧
      (∀ e, ReadItem.entry e ∈ [ReadItem.entry helloEntry, ReadItem.entry notesEntry] →
        extMatches e.name = true →
        e.isDir = false ∧ lookupFile d e.name = some e.content) ∧
      (∀ n, (∀ e, ReadItem.entry e ∈ [ReadItem.entry helloEntry, ReadItem.entry notesEntry] →
          extMatches e.name = true → e.name ≠ n) →
        lookupFile d n = lookupFile (destFiles fsA.dest) n)) :=
  ⟨by decide, by decide, rfl,
    C1_staging_copies fsA _ outA (by decide) rfl (by decide) rfl⟩

/-- Claim C2: the run executes staging first and codegen second; a
staging error is propagated as the result of the run and the generator is
never invoked, while after a successful staging the generator is invoked
and its result (unit on success) becomes the result of the run. -/
theorem C2_pipeline_order (gen : CodegenConfig → Except Err Unit) (fs : FS) (out : RunOut)
    (h : mainRun gen fs = some out) :
    ∀ s, staging fs = some s →
      ((∃ e, s.res = Except.error e ∧ out.res = Except.error e ∧ out.genCalls = []) ∨
       (s.res = Except.ok () ∧ out.genCalls = [tonicInvocation] ∧
         out.res = gen tonicInvocation)) := by
  intro s hs
  cases hres : s.res with
  | error e =>
    rw [mainRun_stage_err gen fs s e hs hres] at h
    obtain rfl := Option.some_inj.mp h.symm
    exact Or.inl ⟨e, rfl, rfl, rfl⟩
  | ok u =>
    cases u
    rw [mainRun_stage_ok gen fs s hs hres] at h
    obtain rfl := Option.some_inj.mp h.symm
    exact Or.inr ⟨rfl, rfl, rfl⟩

/-- Witness for C2 with an always-succeeding generator over an empty
world: staging succeeds and the generator runs exactly once. -/
theorem C2_pipeline_order_witness :
    mainRun (fun _ => Except.ok ()) fsB =
      some ⟨Except.ok (), DestNode.directory [], [], [tonicInvocation]⟩ ∧
    (∀ s, staging fsB = some s →
      ((∃ e, s.res = Except.error e ∧
          (Except.ok () : Except Err Unit) = Except.error e ∧
          ([tonicInvocation] : List CodegenConfig) = []) ∨
       (s.res = Except.ok () ∧
         ([tonicInvocation] : List CodegenConfig) = [tonicInvocation] ∧
         (Except.ok () : Except Err Unit) = Except.ok ()))) :=
  ⟨rfl, C2_pipeline_order (fun _ => Except.ok ()) fsB
    ⟨Except.ok (), DestNode.directory [], [], [tonicInvocation]⟩ rfl⟩

/-- Claim C3: with the source directory missing, staging copies nothing,
emits nothing and succeeds, and the destination directory exists
afterwards with exactly the contents it had (empty when newly
created). -/
theorem C3_missing_source (fs : FS) (hsrc : fs.source = none)
    (hd : fs.dest ≠ DestNode.fileNode) :
    staging fs = some ⟨.ok (), DestNode.directory (destFiles fs.dest), []⟩ :=
  staging_no_source fs hsrc hd

/-- Witness for C3 at a pre-existing destination with prior contents. -/
theorem C3_missing_source_witness :
    fsC.source = none ∧ fsC.dest ≠ DestNode.fileNode ∧
    staging fsC = some ⟨Except.ok (), DestNode.directory (destFiles fsC.dest), []⟩ :=
  ⟨rfl, by decide, C3_missing_source fsC rfl (by decide)⟩

/-- Claim C4 counterexample: a matching entry whose copy fails produces
no `cargo:rerun-if-changed=` emission at all — contradicting the claim
that the declaration is emitted for each identified matching entry
whether or not its copy succeeds. In the script the `println!` comes
after `fs::copy(..)?`, so a failed copy skips it. -/
theorem C4_emission_cex :
    staging ⟨some [ReadItem.entry ⟨"a.proto", false, [1], false⟩], true,
        DestNode.directory [], true⟩ =
      some ⟨Except.error (Err.copyFailed "a.proto"), DestNode.directory [], []⟩ := by
  decide

/-- Claim C4 (amended): the change-tracking declaration of a matching
entry is emitted once per entry, immediately after its copy completes
successfully — on a successful staging run the emitted lines are exactly
one per matching entry in enumeration order, and when staging aborts
because the copy of the entry named `n` failed, no line for `n` was
emitted. -/
theorem C4_emissions (fs : FS) (l : List ReadItem) (out : StageOut)
    (hwf : fs.wfb = true) (hsrc : fs.source = some l) (h : staging fs = some out) :
    (out.res = Except.ok () →
      out.emissions = (matchingEntries l).map fun e => rerunDecl e.name) ∧
    (∀ n, out.res = Except.error (Err.copyFailed n) → rerunDecl n ∉ out.emissions) := by
  constructor
  · intro hok
    obtain ⟨hd, hcases⟩ := staging_ok_cases fs out h hok
    rcases hcases with ⟨hnone, _⟩ | ⟨l2, hsrc2, hl, hloop⟩
    · rw [hsrc] at hnone
      cases hnone
    · rw [hsrc] at hsrc2
      obtain rfl := Option.some_inj.mp hsrc2
      obtain ⟨_, hems, _, _⟩ := stageLoop_ok_inv _ _ _ _ _ hloop hok
      simpa using hems
  · intro n hres hmem
    have hd : fs.dest ≠ DestNode.fileNode := by
      intro hdest
      rw [staging_dest_occupied fs hdest] at h
      obtain rfl := Option.some_inj.mp h.symm
      cases hres
    obtain ⟨l2, hsrc2, hcase⟩ := staging_err_cases fs out h
      (by rw [hres]; intro hh; cases hh) hd
    rw [hsrc] at hsrc2
    obtain rfl := Option.some_inj.mp hsrc2
    rcases hcase with ⟨_, hout⟩ | ⟨hl, hloop⟩
    · rw [hout] at hres
      simp at hres
    · obtain ⟨l₁, e, l₂, hsplit, hn, hm, hcf, hitems, hcopy, hdest, hems⟩ :=
        stageLoop_copyfail_inv _ _ _ _ _ _ hloop hres
      rw [hems] at hmem
      simp only [List.nil_append] at hmem
      obtain ⟨f, hf, hfe⟩ := List.mem_map.mp hmem
      have hfn : f.name = n := rerunDecl_inj _ _ hfe
      have hnod := wfb_nodup fs l hwf hsrc
      rw [hsplit, okNames_append, List.nodup_append] at hnod
      have hmem_l1 : f.name ∈ okNames l₁ :=
        name_mem_okNames l₁ f ((mem_matchingEntries l₁ f).mp hf).1
      have hhead : f.name ∈ okNames (ReadItem.entry e :: l₂) := by
        rw [hfn, ← hn]
        simp [okNames, okEntries]
      exact hnod.2.2 hmem_l1 hhead

/-- Witness for the amended C4 at a one-entry source whose copy
succeeds. -/
theorem C4_emissions_witness :
    fsD.wfb = true ∧ staging fsD = some outD ∧
    ((outD.res = Except.ok () →
      outD.emissions =
        (matchingEntries [ReadItem.entry deltaEntry]).map fun e => rerunDecl e.name) ∧
    (∀ n, outD.res = Except.error (Err.copyFailed n) → rerunDecl n ∉ outD.emissions)) :=
  ⟨by decide, by decide, C4_emissions fsD _ outD (by decide) rfl (by decide)⟩

/-- Claim C5 counterexample: a directory entry named `sub.proto` is not
skipped: its name passes the lexical extension check, the copy of a
directory fails, and staging aborts with that error rather than treating
the entry as non-matching. -/
theorem C5_dir_proto_cex :
    staging ⟨some [ReadItem.entry ⟨"sub.proto", true, [], true⟩], true,
        DestNode.directory [], true⟩ =
      some ⟨Except.error (Err.copyFailed "sub.proto"), DestNode.directory [], []⟩ := by
  decide

/-- Claim C5 (amended): a directory entry whose name does not yield
extension `proto`, sitting anywhere among arbitrary other entries, is
treated as non-matching and skipped without error and without recursive
descent: staging behaves exactly as if that entry were absent from the
listing — it contributes no copy, no emission and no error, whatever the
surrounding entries, destination state or flags. A directory whose name
ends in `.proto`, by contrast, passes the purely lexical extension
check, so staging attempts to copy it and aborts with the resulting
error (the counterexample above). -/
theorem C5_dirs_skipped (fs : FS) (l₁ l₂ : List ReadItem) (e : Entry)
    (hsrc : fs.source = some (l₁ ++ ReadItem.entry e :: l₂))
    (_hdir : e.isDir = true) (hnm : extMatches e.name = false) :
    staging fs = staging (setSource fs (l₁ ++ l₂)) := by
  by_cases hdest : fs.dest = DestNode.fileNode
  · rw [staging_dest_occupied fs hdest,
      staging_dest_occupied (setSource fs (l₁ ++ l₂)) hdest]
    rfl
  · cases hl : fs.sourceListable with
    | false =>
      rw [staging_not_listable fs _ hsrc hdest hl,
        staging_not_listable (setSource fs (l₁ ++ l₂)) _ rfl hdest hl]
      rfl
    | true =>
      rw [staging_eq_loop fs _ hsrc hdest hl,
        staging_eq_loop (setSource fs (l₁ ++ l₂)) _ rfl hdest hl]
      exact stageLoop_skip fs.destWritable e hnm l₁ l₂ (destFiles fs.dest) []

/-- Witness for the amended C5: a plain directory entry sitting beside a
regular proto file is skipped — staging of the mixed listing equals
staging with the directory entry removed. -/
theorem C5_dirs_skipped_witness :
    staging fsE =
      staging (setSource fsE [ReadItem.entry ⟨"k.proto", false, [11], true⟩]) :=
  C5_dirs_skipped fsE [ReadItem.entry ⟨"k.proto", false, [11], true⟩] []
    ⟨"subdir", true, [], true⟩ rfl rfl (by decide)

/-- Claim C6: staging is idempotent over an unchanged source: a second
run started from the destination state a successful first run produced
returns the very same outcome — same result, same destination contents,
and the same emissions. -/
theorem C6_idempotent (fs : FS) (out : StageOut) (hwf : fs.wfb = true)
    (h : staging fs = some out) (hok : out.res = .ok ()) :
    staging (setDest fs out.dest) = some out := by
  obtain ⟨hd, hcases⟩ := staging_ok_cases fs out h hok
  rcases hcases with ⟨hnone, hout⟩ | ⟨l, hsrc, hl, hloop⟩
  · subst hout
    have h2 := staging_no_source (setDest fs (DestNode.directory (destFiles fs.dest)))
      hnone (by intro hh; cases hh)
    simpa [setDest, destFiles] using h2
  · obtain ⟨hdest, hems, hitems, hcopy⟩ := stageLoop_ok_inv _ _ _ _ _ hloop hok
    have hwfl := wfb_names fs l hwf hsrc
    have hnd := matchingEntries_names_nodup l (wfb_nodup fs l hwf hsrc)
    have hd2 : (setDest fs out.dest).dest ≠ DestNode.fileNode := by
      show out.dest ≠ DestNode.fileNode
      rw [hdest]
      intro hh
      cases hh
    have heq := staging_eq_loop (setDest fs out.dest) l hsrc hd2 hl
    rw [heq]
    show stageLoop fs.destWritable l (destFiles out.dest) [] = some out
    rw [hdest]
    show stageLoop fs.destWritable l
      (applyCopies (matchingEntries l) (destFiles fs.dest)) [] = some out
    rw [stageLoop_ok_run fs.destWritable l _ [] hitems hwfl hcopy,
      applyCopies_idem _ _ hnd]
    obtain ⟨res, odest, oems⟩ := out
    simp only [List.nil_append] at hems ⊢
    rw [← hdest, ← hems, ← hok]

/-- Witness for C6: a second staging run over the state the first run
left behind returns the identical outcome. -/
theorem C6_idempotent_witness :
    fsF.wfb = true ∧ staging fsF = some outF ∧
    staging (setDest fsF outF.dest) = some outF :=
  ⟨by decide, by decide, C6_idempotent fsF outF (by decide) (by decide) rfl⟩

/-- Claim C7: when the destination path is occupied by a non-directory,
`create_dir_all` fails and staging returns that error before enumerating
or copying anything: the destination path is left as it was and nothing
is emitted. -/
theorem C7_create_dir_failure (fs : FS) (hd : fs.dest = DestNode.fileNode) :
    staging fs = some ⟨Except.error Err.createDirFailed, fs.dest, []⟩ :=
  staging_dest_occupied fs hd

/-- Witness for C7: the destination occupied by a file, with a matching
source entry that is never copied. -/
theorem C7_create_dir_failure_witness :
    fsG.dest = DestNode.fileNode ∧
    staging fsG = some ⟨Except.error Err.createDirFailed, fsG.dest, []⟩ :=
  ⟨rfl, C7_create_dir_failure fsG rfl⟩

/-- Claim C8: when the copy of a matching entry fails, staging aborts
immediately with that error: the listing splits at the failing entry,
every earlier matching entry was copied successfully and its copy is
still present in the destination (no rollback), and the destination and
emissions are exactly those accumulated before the failure — nothing
past the failing entry is processed. -/
theorem C8_copy_abort (fs : FS) (l : List ReadItem) (out : StageOut) (n : String)
    (hwf : fs.wfb = true) (hsrc : fs.source = some l)
    (h : staging fs = some out) (he : out.res = Except.error (Err.copyFailed n)) :
    ∃ l₁ e l₂, l = l₁ ++ ReadItem.entry e :: l₂ ∧ e.name = n ∧
      extMatches e.name = true ∧ copyOkB e fs.destWritable = false ∧
      (∀ f, ReadItem.entry f ∈ l₁ → extMatches f.name = true →
        copyOkB f fs.destWritable = true) ∧
      out.dest = DestNode.directory
        (applyCopies (matchingEntries l₁) (destFiles fs.dest)) ∧
      (∀ f ∈ matchingEntries l₁,
        lookupFile (applyCopies (matchingEntries l₁) (destFiles fs.dest)) f.name =
          some f.content) ∧
      out.emissions = (matchingEntries l₁).map fun f => rerunDecl f.name := by
  have hd : fs.dest ≠ DestNode.fileNode := by
    intro hdest
    rw [staging_dest_occupied fs hdest] at h
    obtain rfl := Option.some_inj.mp h.symm
    cases he
  obtain ⟨l2, hsrc2, hcase⟩ := staging_err_cases fs out h
    (by rw [he]; intro hh; cases hh) hd
  rw [hsrc] at hsrc2
  obtain rfl := Option.some_inj.mp hsrc2
  rcases hcase with ⟨_, hout⟩ | ⟨hl, hloop⟩
  · rw [hout] at he
    simp at he
  · obtain ⟨l₁, e, l₂, hsplit, hn, hm, hcf, hitems, hcopy, hdest, hems⟩ :=
      stageLoop_copyfail_inv _ _ _ _ _ _ hloop he
    have hnod := wfb_nodup fs l hwf hsrc
    have hnd1 : ((matchingEntries l₁).map Entry.name).Nodup := by
      rw [hsplit, okNames_append, List.nodup_append] at hnod
      exact matchingEntries_names_nodup l₁ hnod.1
    exact ⟨l₁, e, l₂, hsplit, hn, hm, hcf, hcopy, hdest,
      lookupFile_applyCopies_all _ _ hnd1, by simpa using hems⟩

/-- Witness for C8: the first copy succeeds, the second fails; the first
file stays in the destination. -/
theorem C8_copy_abort_witness :
    fsH.wfb = true ∧ staging fsH = some outH ∧
    (∃ l₁ e l₂,
      [ReadItem.entry ⟨"ok.proto", false, [7], true⟩,
        ReadItem.entry ⟨"bad.proto", false, [8], false⟩] =
          l₁ ++ ReadItem.entry e :: l₂ ∧
      e.name = "bad.proto" ∧ extMatches e.name = true ∧
      copyOkB e fsH.destWritable = false ∧
      (∀ f, ReadItem.entry f ∈ l₁ → extMatches f.name = true →
        copyOkB f fsH.destWritable = true) ∧
      outH.dest = DestNode.directory
        (applyCopies (matchingEntries l₁) (destFiles fsH.dest)) ∧
      (∀ f ∈ matchingEntries l₁,
        lookupFile (applyCopies (matchingEntries l₁) (destFiles fsH.dest)) f.name =
          some f.content) ∧
      outH.emissions = (matchingEntries l₁).map fun f => rerunDecl f.name) :=
  ⟨by decide, by decide,
    C8_copy_abort fsH _ outH "bad.proto" (by decide) rfl (by decide) rfl⟩

/-- Claim C9: the codegen step invokes the external generator exactly
once per run, with server and client stub generation both enabled, entry
files `["proto/hello.proto"]` and include paths `["proto"]`; whatever the
generator returns is propagated unchanged as the result of the run. -/
theorem C9_codegen_config (gen : CodegenConfig → Except Err Unit) (fs : FS) (out : RunOut)
    (h : mainRun gen fs = some out) :
    tonicInvocation = ⟨true, true, ["proto/hello.proto"], ["proto"]⟩ ∧
    ∀ s, staging fs = some s → s.res = Except.ok () →
      out.genCalls = [tonicInvocation] ∧ out.res = gen tonicInvocation := by
  refine ⟨rfl, ?_⟩
  intro s hs hok
  rw [mainRun_stage_ok gen fs s hs hok] at h
  obtain rfl := Option.some_inj.mp h.symm
  exact ⟨rfl, rfl⟩

/-- Witness for C9 with a failing generator: its error is the result of
the run and it was called once with the fixed configuration. -/
theorem C9_codegen_config_witness :
    mainRun (fun _ => Except.error (Err.genFailed "parse")) fsI =
      some ⟨Except.error (Err.genFailed "parse"), DestNode.directory [], [],
        [tonicInvocation]⟩ ∧
    (tonicInvocation = ⟨true, true, ["proto/hello.proto"], ["proto"]⟩ ∧
      ∀ s, staging fsI = some s → s.res = Except.ok () →
        ([tonicInvocation] : List CodegenConfig) = [tonicInvocation] ∧
        (Except.error (Err.genFailed "parse") : Except Err Unit) =
          Except.error (Err.genFailed "parse")) :=
  ⟨rfl, C9_codegen_config (fun _ => Except.error (Err.genFailed "parse")) fsI
    ⟨Except.error (Err.genFailed "parse"), DestNode.directory [], [],
      [tonicInvocation]⟩ rfl⟩

/-- Claim C10: over well-formed directory contents — entry names as
`read_dir` yields them, never empty, `.` or `..` — the `unwrap` on the
file-name lookup cannot panic, and the staging step always returns an
outcome (success or error). -/
theorem C10_no_panic (fs : FS) (hwf : fs.wfb = true) :
    ∃ out, staging fs = some out := by
  by_cases hdest : fs.dest = DestNode.fileNode
  · exact ⟨_, staging_dest_occupied fs hdest⟩
  · cases hsrc : fs.source with
    | none => exact ⟨_, staging_no_source fs hsrc hdest⟩
    | some l =>
      cases hl : fs.sourceListable with
      | false => exact ⟨_, staging_not_listable fs l hsrc hdest hl⟩
      | true =>
        obtain ⟨out, hout⟩ := stageLoop_total fs.destWritable l (destFiles fs.dest) []
          (wfb_names fs l hwf hsrc)
        exact ⟨out, by rw [staging_eq_loop fs l hsrc hdest hl, hout]⟩

/-- Witness for C10 at a one-entry directory. -/
theorem C10_no_panic_witness :
    fsJ.wfb = true ∧ ∃ out, staging fsJ = some out :=
  ⟨by decide, C10_no_panic fsJ (by decide)⟩

end ProtoBuild
